import Mathlib

/-!
Shallow embedding of the croaring-rs lazy-evaluation subsystem
(`src/croaring/src/bitmap/lazy.rs`) and iteration protocol
(`src/croaring/src/bitmap/iter.rs`).

The `Bitmap` container itself and the `ffi` primitives it calls live outside
the repository sources; following the specification they are an external
collaborator, so each such primitive is given a definition whose doc comment
starts with `Modelled from the spec:`.  A bitmap is modelled by its element
set (a `Finset ℕ` of u32 values) together with the cached cardinality and a
dirtiness flag: in Normal mode the cache equals the true cardinality, in
Lazy-dirty mode it may be stale.  The Rust glue code that is present under
`src/` (the `LazyBitmap` and `LazyOwnedBitmap` wrappers, `lazy_batch`,
`into_lazy`, `into_inner`, the iterator types) is translated function by
function.
-/

/-- Modelled from the spec: the external `Bitmap` collaborator.  `elems` is
the set of u32 values stored, `cardCache` the cached cardinality, and `dirty`
the Lazy-dirty mode flag.  In Normal mode `dirty = false` and
`cardCache = elems.card`; lazy primitives may leave `cardCache` stale. -/
structure Bitmap where
  elems : Finset ℕ
  cardCache : ℕ
  dirty : Bool
deriving DecidableEq

/-- Normal-mode invariant of a bitmap: not dirty, cardinality cache exact. -/
def Bitmap.normal (b : Bitmap) : Prop :=
  b.dirty = false ∧ b.cardCache = b.elems.card

/-- Modelled from the spec: `Bitmap::create`, the empty Normal bitmap. -/
def Bitmap.create : Bitmap :=
  ⟨∅, 0, false⟩

/-- Modelled from the spec: `Bitmap::of(slice)`, the Normal bitmap holding
exactly the elements of the slice (order and duplicates irrelevant). -/
def Bitmap.of (xs : List ℕ) : Bitmap :=
  ⟨xs.toFinset, xs.toFinset.card, false⟩

/-- Modelled from the spec: eager `Bitmap::add`, inserting one element and
maintaining the cardinality bookkeeping. -/
def Bitmap.add (b : Bitmap) (x : ℕ) : Bitmap :=
  ⟨insert x b.elems, (insert x b.elems).card, b.dirty⟩

/-- Modelled from the spec: eager in-place union (`BitOrAssign` on `Bitmap`),
which recomputes bookkeeping after the operation and stays Normal. -/
def Bitmap.eager_or (b other : Bitmap) : Bitmap :=
  ⟨b.elems ∪ other.elems, (b.elems ∪ other.elems).card, false⟩

/-- Modelled from the spec: eager in-place symmetric difference
(`BitXorAssign` on `Bitmap`). -/
def Bitmap.eager_xor (b other : Bitmap) : Bitmap :=
  ⟨(b.elems \ other.elems) ∪ (other.elems \ b.elems),
   ((b.elems \ other.elems) ∪ (other.elems \ b.elems)).card, false⟩

/-- Modelled from the spec: eager in-place difference (`SubAssign` on
`Bitmap`). -/
def Bitmap.eager_sub (b other : Bitmap) : Bitmap :=
  ⟨b.elems \ other.elems, (b.elems \ other.elems).card, false⟩

/-- Modelled from the spec: `ffi::roaring_bitmap_lazy_or_inplace`.  The target
becomes the union of the two element sets; cardinality bookkeeping is
deferred (the cache is left untouched) and the target is Lazy-dirty.  The
`forceBitsets` hint only affects the container representation, which is
outside the model. -/
def roaring_bitmap_lazy_or_inplace (target other : Bitmap) (forceBitsets : Bool) : Bitmap :=
  ⟨target.elems ∪ other.elems, target.cardCache, true⟩

/-- Modelled from the spec: `ffi::roaring_bitmap_lazy_xor_inplace`.  The
target becomes the symmetric difference; bookkeeping deferred. -/
def roaring_bitmap_lazy_xor_inplace (target other : Bitmap) : Bitmap :=
  ⟨(target.elems \ other.elems) ∪ (other.elems \ target.elems), target.cardCache, true⟩

/-- Modelled from the spec: `ffi::roaring_bitmap_lazy_andnot_inplace`.  The
target becomes the difference; bookkeeping deferred. -/
def roaring_bitmap_lazy_andnot_inplace (target other : Bitmap) : Bitmap :=
  ⟨target.elems \ other.elems, target.cardCache, true⟩

/-- Modelled from the spec: `ffi::roaring_bitmap_lazy_add`, inserting one
element under lazy bookkeeping. -/
def roaring_bitmap_lazy_add (target : Bitmap) (element : ℕ) : Bitmap :=
  ⟨insert element target.elems, target.cardCache, true⟩

/-- Modelled from the spec: `ffi::roaring_bitmap_repair_after_lazy`, the
repair pass: restores the cardinality cache and leaves Normal mode.  The
element set is unchanged. -/
def roaring_bitmap_repair_after_lazy (target : Bitmap) : Bitmap :=
  ⟨target.elems, target.elems.card, false⟩

/-- Modelled from the spec: `ffi::roaring_bitmap_convert_to_lazy`, the
Normal-to-Lazy-dirty transition used by `into_lazy`; elements unchanged. -/
def roaring_bitmap_convert_to_lazy (target : Bitmap) : Bitmap :=
  ⟨target.elems, target.cardCache, true⟩

/-- Modelled from the spec: `ffi::roaring_bitmap_is_empty`, valid even while
Lazy-dirty since it does not depend on cardinality bookkeeping. -/
def roaring_bitmap_is_empty (target : Bitmap) : Bool :=
  decide (target.elems = ∅)

/-- The scoped lazy handle of `lazy.rs`: `LazyBitmap<'a>` holds a mutable
borrow of one bitmap. -/
structure LazyBitmap where
  bitmap : Bitmap
deriving DecidableEq

/-- `LazyBitmap::or_inplace` from `lazy.rs`.  The Rust method takes
`(&mut self, other: &Bitmap, force_bitsets: bool)`; the pair returned here is
the final value of both memory locations after the call, so the frame effect
on `other` is part of the statement. -/
def LazyBitmap.or_inplace (l : LazyBitmap) (other : Bitmap) (forceBitsets : Bool) :
    LazyBitmap × Bitmap :=
  (⟨roaring_bitmap_lazy_or_inplace l.bitmap other forceBitsets⟩, other)

/-- `LazyBitmap::xor_inplace` from `lazy.rs`, with the same pair convention
as `LazyBitmap.or_inplace`. -/
def LazyBitmap.xor_inplace (l : LazyBitmap) (other : Bitmap) : LazyBitmap × Bitmap :=
  (⟨roaring_bitmap_lazy_xor_inplace l.bitmap other⟩, other)

/-- The owned lazy wrapper of `lazy.rs`: `LazyOwnedBitmap { bitmap: Bitmap }`. -/
structure LazyOwnedBitmap where
  bitmap : Bitmap
deriving DecidableEq

/-- `LazyOwnedBitmap::create` from `lazy.rs`: wraps `Bitmap::create`. -/
def LazyOwnedBitmap.create : LazyOwnedBitmap :=
  ⟨Bitmap.create⟩

/-- `LazyOwnedBitmap::or_inplace` from `lazy.rs`, pair convention as above. -/
def LazyOwnedBitmap.or_inplace (l : LazyOwnedBitmap) (other : Bitmap) (forceBitsets : Bool) :
    LazyOwnedBitmap × Bitmap :=
  (⟨roaring_bitmap_lazy_or_inplace l.bitmap other forceBitsets⟩, other)

/-- `LazyOwnedBitmap::add` from `lazy.rs`: wraps the lazy-add primitive. -/
def LazyOwnedBitmap.add (l : LazyOwnedBitmap) (element : ℕ) : LazyOwnedBitmap :=
  ⟨roaring_bitmap_lazy_add l.bitmap element⟩

/-- `SubAssign<&Bitmap> for LazyOwnedBitmap` from `lazy.rs` (`-=`), which
calls the lazy andnot primitive; pair convention as above. -/
def LazyOwnedBitmap.sub_assign (l : LazyOwnedBitmap) (other : Bitmap) :
    LazyOwnedBitmap × Bitmap :=
  (⟨roaring_bitmap_lazy_andnot_inplace l.bitmap other⟩, other)

/-- `LazyOwnedBitmap::is_empty` from `lazy.rs`. -/
def LazyOwnedBitmap.is_empty (l : LazyOwnedBitmap) : Bool :=
  roaring_bitmap_is_empty l.bitmap

/-- `Bitmap::into_lazy` from `lazy.rs`: converts to lazy mode and wraps. -/
def Bitmap.into_lazy (b : Bitmap) : LazyOwnedBitmap :=
  ⟨roaring_bitmap_convert_to_lazy b⟩

/-- `LazyOwnedBitmap::into_inner` from `lazy.rs`: repairs and unwraps. -/
def LazyOwnedBitmap.into_inner (l : LazyOwnedBitmap) : Bitmap :=
  roaring_bitmap_repair_after_lazy l.bitmap

/-- One lazy combining operation against another bitmap, as used by the
batch shapes: union via `or_inplace`, symmetric difference via
`xor_inplace`, difference via `sub_assign`. -/
inductive LazyOp where
  | orOp (other : Bitmap) (forceBitsets : Bool)
  | xorOp (other : Bitmap)
  | subOp (other : Bitmap)
deriving DecidableEq

/-- Effect of one lazy operation on the backing bitmap, routed through the
wrapper method the operation names: `orOp` through `LazyBitmap.or_inplace`,
`xorOp` through `LazyBitmap.xor_inplace`, `subOp` through
`LazyOwnedBitmap.sub_assign`. -/
def applyLazyOp (b : Bitmap) : LazyOp → Bitmap
  | LazyOp.orOp other forceBitsets => ((LazyBitmap.mk b).or_inplace other forceBitsets).1.bitmap
  | LazyOp.xorOp other => ((LazyBitmap.mk b).xor_inplace other).1.bitmap
  | LazyOp.subOp other => ((LazyOwnedBitmap.mk b).sub_assign other).1.bitmap

/-- A batch of lazy operations applied in order. -/
def applyLazyOps (b : Bitmap) (ops : List LazyOp) : Bitmap :=
  ops.foldl applyLazyOp b

/-- The same operation applied eagerly, through the eager in-place
operators on `Bitmap`. -/
def applyEagerOp (b : Bitmap) : LazyOp → Bitmap
  | LazyOp.orOp other _ => b.eager_or other
  | LazyOp.xorOp other => b.eager_xor other
  | LazyOp.subOp other => b.eager_sub other

/-- A batch of operations applied eagerly in order. -/
def applyEagerOps (b : Bitmap) (ops : List LazyOp) : Bitmap :=
  ops.foldl applyEagerOp b

/-- `Bitmap::lazy_batch` from `lazy.rs`, specialised to a closure applying a
list of lazy operations in order: runs the operations through the handle,
then repairs. -/
def Bitmap.lazy_batch_ops (b : Bitmap) (ops : List LazyOp) : Bitmap :=
  roaring_bitmap_repair_after_lazy (applyLazyOps b ops)

/-- `Bitmap::lazy_batch` from `lazy.rs` with Rust unwinding made explicit:
the closure receives the bitmap behind the handle and either returns
normally (`Except.ok` with a result) or panics (`Except.error`), having
mutated the bitmap up to that point.  The Rust body is
`let result = f(&mut lazy_bitmap); repair; result`: the repair call is
straight-line code after `f` and `LazyBitmap` has no drop glue, so when `f`
unwinds the repair does not run and the error propagates. -/
def Bitmap.lazy_batch_run {E O : Type} (b : Bitmap) (f : Bitmap → Bitmap × Except E O) :
    Bitmap × Except E O :=
  match f b with
  | (b1, Except.ok o) => (roaring_bitmap_repair_after_lazy b1, Except.ok o)
  | (b1, Except.error e) => (b1, Except.error e)

/-- Pure effect of one operation on an element set; both the lazy and the
eager route compute this set. -/
def opSet (e : Finset ℕ) : LazyOp → Finset ℕ
  | LazyOp.orOp other _ => e ∪ other.elems
  | LazyOp.xorOp other => (e \ other.elems) ∪ (other.elems \ e)
  | LazyOp.subOp other => e \ other.elems

/-- `FromIterator<u32> for Bitmap` from `iter.rs`: collects the sequence
into a vector and builds the bitmap with `Bitmap::of`. -/
def Bitmap.from_iter (s : List ℕ) : Bitmap :=
  Bitmap.of s

/-- `Extend<u32> for Bitmap` from `iter.rs`: adds each element in order. -/
def Bitmap.extend (b : Bitmap) (s : List ℕ) : Bitmap :=
  s.foldl Bitmap.add b

/-- Maximum value of the Rust `u32` count type used by `next_many`. -/
def u32MAX : ℕ := 4294967295

/-- Modelled from the spec: the C iterator struct
`ffi::roaring_uint32_iterator_s` for one traversal direction, identified
with the list of elements remaining to visit in traversal order.  The
struct's `has_value` and `current_value` fields are derived views. -/
structure UIter where
  rem : List ℕ
deriving DecidableEq

/-- The `has_value` field of the C iterator struct. -/
def UIter.has_value (it : UIter) : Bool :=
  !it.rem.isEmpty

/-- The `current_value` field of the C iterator struct; unspecified (0 here)
once the cursor is exhausted, matching that the field is only read under
`has_value`. -/
def UIter.current_value (it : UIter) : ℕ :=
  it.rem.headD 0

/-- Modelled from the spec: `ffi::roaring_init_iterator`, the forward cursor
positioned at the bitmap's first element; `xs` is the bitmap's ascending
element sequence. -/
def roaring_init_iterator (xs : List ℕ) : UIter :=
  ⟨xs⟩

/-- Modelled from the spec: `ffi::roaring_init_iterator_last`, the backward
cursor positioned at the bitmap's last element, so its remaining sequence is
the reverse of the ascending one. -/
def roaring_init_iterator_last (xs : List ℕ) : UIter :=
  ⟨xs.reverse⟩

/-- Modelled from the spec: `ffi::roaring_advance_uint32_iterator`, stepping
the forward cursor to the next element (state part; the returned bool is the
new `has_value`, which the Rust callers ignore). -/
def roaring_advance_uint32_iterator (it : UIter) : UIter :=
  ⟨it.rem.tail⟩

/-- Modelled from the spec: `ffi::roaring_previous_uint32_iterator`, stepping
the backward cursor to the previous element. -/
def roaring_previous_uint32_iterator (it : UIter) : UIter :=
  ⟨it.rem.tail⟩

/-- Modelled from the spec: `ffi::roaring_read_uint32_iterator`, the bulk
read: removes up to `count` elements from the cursor in traversal order and
returns them (the written buffer contents) with the advanced cursor; the
count the C call returns is the length of the first component. -/
def roaring_read_uint32_iterator (it : UIter) (count : ℕ) : List ℕ × UIter :=
  (it.rem.take count, ⟨it.rem.drop count⟩)

/-- The borrowing iterator of `iter.rs`: `BitmapIterator<'a>` holds a
forward and an independent backward cursor over the same bitmap. -/
structure BitmapIterator where
  iterator : UIter
  rev_iterator : UIter
deriving DecidableEq

/-- `BitmapIterator::new` from `iter.rs` (reached through `Bitmap::iter`):
initialises both cursors from the bitmap, whose ascending element sequence
is `xs`. -/
def BitmapIterator.new (xs : List ℕ) : BitmapIterator :=
  ⟨roaring_init_iterator xs, roaring_init_iterator_last xs⟩

/-- `BitmapIterator::has_value` from `iter.rs`. -/
def BitmapIterator.has_value (it : BitmapIterator) : Bool :=
  it.iterator.has_value

/-- `BitmapIterator::current_value` from `iter.rs`. -/
def BitmapIterator.current_value (it : BitmapIterator) : Option ℕ :=
  if it.has_value then some it.iterator.current_value else none

/-- `BitmapIterator::advance` from `iter.rs` (state effect). -/
def BitmapIterator.advance (it : BitmapIterator) : BitmapIterator :=
  { it with iterator := roaring_advance_uint32_iterator it.iterator }

/-- `BitmapIterator::has_value_back` from `iter.rs`. -/
def BitmapIterator.has_value_back (it : BitmapIterator) : Bool :=
  it.rev_iterator.has_value

/-- `BitmapIterator::current_value_back` from `iter.rs`. -/
def BitmapIterator.current_value_back (it : BitmapIterator) : Option ℕ :=
  if it.has_value_back then some it.rev_iterator.current_value else none

/-- `BitmapIterator::advance_back` from `iter.rs` (state effect). -/
def BitmapIterator.advance_back (it : BitmapIterator) : BitmapIterator :=
  { it with rev_iterator := roaring_previous_uint32_iterator it.rev_iterator }

/-- `Iterator::next for BitmapIterator` from `iter.rs`: return the forward
cursor's current value and advance, or nothing when exhausted.  The pair is
(returned option, iterator after the call). -/
def BitmapIterator.next (it : BitmapIterator) : Option ℕ × BitmapIterator :=
  match it.current_value with
  | some value => (some value, it.advance)
  | none => (none, it)

/-- `DoubleEndedIterator::next_back for BitmapIterator` from `iter.rs`. -/
def BitmapIterator.next_back (it : BitmapIterator) : Option ℕ × BitmapIterator :=
  match it.current_value_back with
  | some value => (some value, it.advance_back)
  | none => (none, it)

/-- `BitmapIterator::next_many` from `iter.rs`: the destination length is
converted to the u32 count (`u32::try_from(dst.len()).unwrap_or(u32::MAX)`,
i.e. clamped at `u32MAX`), then the bulk-read primitive fills the buffer.
The pair is (elements written to `dst`, iterator after the call); the usize
the Rust method returns is the length of the first component. -/
def BitmapIterator.next_many (it : BitmapIterator) (dstLen : ℕ) : List ℕ × BitmapIterator :=
  let count := if dstLen ≤ u32MAX then dstLen else u32MAX
  let r := roaring_read_uint32_iterator it.iterator count
  (r.1, { it with iterator := r.2 })

/-- The owning iterator of `iter.rs`: `BitmapIntoIterator` holds the two
cursors plus the pinned bitmap; the pin only fixes the storage address, so
the model keeps just the cursor states. -/
structure BitmapIntoIterator where
  iterator : UIter
  rev_iterator : UIter
deriving DecidableEq

/-- `BitmapIntoIterator::new` from `iter.rs` (reached through
`Bitmap::into_iter`): pins the bitmap and initialises both cursors from it. -/
def BitmapIntoIterator.new (xs : List ℕ) : BitmapIntoIterator :=
  ⟨roaring_init_iterator xs, roaring_init_iterator_last xs⟩

/-- `Iterator::next for BitmapIntoIterator` from `iter.rs`, written inline
over the struct fields exactly as the source does. -/
def BitmapIntoIterator.next (it : BitmapIntoIterator) : Option ℕ × BitmapIntoIterator :=
  if it.iterator.has_value then
    (some it.iterator.current_value,
     { it with iterator := roaring_advance_uint32_iterator it.iterator })
  else
    (none, it)

/-- `DoubleEndedIterator::next_back for BitmapIntoIterator` from `iter.rs`. -/
def BitmapIntoIterator.next_back (it : BitmapIntoIterator) : Option ℕ × BitmapIntoIterator :=
  if it.rev_iterator.has_value then
    (some it.rev_iterator.current_value,
     { it with rev_iterator := roaring_previous_uint32_iterator it.rev_iterator })
  else
    (none, it)

/-- `BitmapIntoIterator::next_many` from `iter.rs`; its body is identical to
`BitmapIterator::next_many`. -/
def BitmapIntoIterator.next_many (it : BitmapIntoIterator) (dstLen : ℕ) :
    List ℕ × BitmapIntoIterator :=
  let count := if dstLen ≤ u32MAX then dstLen else u32MAX
  let r := roaring_read_uint32_iterator it.iterator count
  (r.1, { it with iterator := r.2 })

/-- Fuel-bounded forward drain: repeated `next` calls collecting the values
returned, stopping at exhaustion or when the fuel runs out. -/
def drainNext : ℕ → BitmapIterator → List ℕ
  | 0, _ => []
  | fuel + 1, it =>
    match it.next with
    | (some value, it1) => value :: drainNext fuel it1
    | (none, _) => []

/-- Fuel-bounded backward drain: repeated `next_back` calls. -/
def drainBack : ℕ → BitmapIterator → List ℕ
  | 0, _ => []
  | fuel + 1, it =>
    match it.next_back with
    | (some value, it1) => value :: drainBack fuel it1
    | (none, _) => []

/-- Fuel-bounded forward drain of the owning iterator. -/
def drainNextOwned : ℕ → BitmapIntoIterator → List ℕ
  | 0, _ => []
  | fuel + 1, it =>
    match it.next with
    | (some value, it1) => value :: drainNextOwned fuel it1
    | (none, _) => []

/-- Fuel-bounded backward drain of the owning iterator. -/
def drainBackOwned : ℕ → BitmapIntoIterator → List ℕ
  | 0, _ => []
  | fuel + 1, it =>
    match it.next_back with
    | (some value, it1) => value :: drainBackOwned fuel it1
    | (none, _) => []

/-- One forward-cursor call in an interleaving: a single `next` or a
`next_many` with a destination of the given length. -/
inductive FwdOp where
  | single
  | many (dstLen : ℕ)
deriving DecidableEq

/-- Run one forward-cursor call, returning the elements it produced (the
value returned by `next`, or the buffer contents written by `next_many`)
and the iterator after the call. -/
def BitmapIterator.stepFwd (it : BitmapIterator) : FwdOp → List ℕ × BitmapIterator
  | FwdOp.single =>
    match it.next with
    | (some value, it1) => ([value], it1)
    | (none, it1) => ([], it1)
  | FwdOp.many dstLen => it.next_many dstLen

/-- Run an interleaving of forward-cursor calls, concatenating everything
produced in order. -/
def BitmapIterator.runFwd (it : BitmapIterator) : List FwdOp → List ℕ × BitmapIterator
  | [] => ([], it)
  | op :: ops =>
    let r := it.stepFwd op
    let rest := r.2.runFwd ops
    (r.1 ++ rest.1, rest.2)

/-- Iterated `next_back` state, for monotonic-exhaustion statements about
the backward cursor. -/
def backSteps : ℕ → BitmapIterator → BitmapIterator
  | 0, it => it
  | n + 1, it => backSteps n (it.next_back).2

/-- Effect of one lazy operation in the owned pipeline: `orOp` through
`LazyOwnedBitmap.or_inplace` (the `|=` operator), `subOp` through
`LazyOwnedBitmap.sub_assign` (the `-=` operator), `xorOp` through the
`roaring_bitmap_lazy_xor_inplace` primitive the claim names. -/
def applyLazyOpOwned (l : LazyOwnedBitmap) : LazyOp → LazyOwnedBitmap
  | LazyOp.orOp other forceBitsets => (l.or_inplace other forceBitsets).1
  | LazyOp.xorOp other => ⟨roaring_bitmap_lazy_xor_inplace l.bitmap other⟩
  | LazyOp.subOp other => (l.sub_assign other).1

/-- A batch of lazy operations chained on an owned lazy bitmap. -/
def applyLazyOpsOwned (l : LazyOwnedBitmap) (ops : List LazyOp) : LazyOwnedBitmap :=
  ops.foldl applyLazyOpOwned l

theorem applyLazyOp_elems (b : Bitmap) (op : LazyOp) :
    (applyLazyOp b op).elems = opSet b.elems op := by
  cases op <;> rfl

theorem applyEagerOp_elems (b : Bitmap) (op : LazyOp) :
    (applyEagerOp b op).elems = opSet b.elems op := by
  cases op <;> rfl

theorem applyLazyOpOwned_bitmap (l : LazyOwnedBitmap) (op : LazyOp) :
    (applyLazyOpOwned l op).bitmap = applyLazyOp l.bitmap op := by
  cases op <;> rfl

theorem opSet_elems_only (e : Finset ℕ) (op : LazyOp) (b : Bitmap) (h : e = b.elems) :
    opSet e op = opSet b.elems op := by
  rw [h]

theorem applyLazyOps_elems (ops : List LazyOp) (b : Bitmap) :
    (applyLazyOps b ops).elems = List.foldl opSet b.elems ops := by
  induction ops generalizing b with
  | nil => rfl
  | cons op ops ih =>
    show (applyLazyOps (applyLazyOp b op) ops).elems = _
    rw [ih, List.foldl_cons, applyLazyOp_elems]

theorem applyEagerOps_elems (ops : List LazyOp) (b : Bitmap) :
    (applyEagerOps b ops).elems = List.foldl opSet b.elems ops := by
  induction ops generalizing b with
  | nil => rfl
  | cons op ops ih =>
    show (applyEagerOps (applyEagerOp b op) ops).elems = _
    rw [ih, List.foldl_cons, applyEagerOp_elems]

theorem applyLazyOpsOwned_bitmap (ops : List LazyOp) (l : LazyOwnedBitmap) :
    (applyLazyOpsOwned l ops).bitmap = applyLazyOps l.bitmap ops := by
  induction ops generalizing l with
  | nil => rfl
  | cons op ops ih =>
    show (applyLazyOpsOwned (applyLazyOpOwned l op) ops).bitmap = _
    rw [ih, applyLazyOpOwned_bitmap]
    rfl

/-- Claim C1: for every starting bitmap and every finite sequence of union
(`or_inplace` / `|=`), xor (`xor_inplace` / `^=`) and difference
(`sub_assign` / `-=`) operations against other bitmaps, applying the
sequence through the lazy engine — via the `lazy_batch` shape, or via
`into_lazy` followed by the lazy operations and `into_inner` — yields a
bitmap with exactly the same element set as applying the same operations
eagerly on the starting bitmap in the same order. -/
theorem lazy_eager_equivalence (b : Bitmap) (ops : List LazyOp) :
    ((applyLazyOpsOwned (b.into_lazy) ops).into_inner).elems = (applyEagerOps b ops).elems
    ∧ (b.lazy_batch_ops ops).elems = (applyEagerOps b ops).elems := by
  constructor
  · show (applyLazyOpsOwned (b.into_lazy) ops).bitmap.elems = _
    rw [applyLazyOpsOwned_bitmap, applyLazyOps_elems, applyEagerOps_elems]
    rfl
  · show (applyLazyOps b ops).elems = _
    rw [applyLazyOps_elems, applyEagerOps_elems]

/-- Claim C1 witness: the equivalence applied to the concrete batch of the
`lazy_batch` doc example. -/
theorem lazy_eager_equivalence_witness :
    ((applyLazyOpsOwned ((Bitmap.of [99]).into_lazy)
        [LazyOp.orOp (Bitmap.of [1, 2, 5, 10]) false,
         LazyOp.xorOp (Bitmap.of [5]),
         LazyOp.subOp (Bitmap.of [2])]).into_inner).elems
      = (applyEagerOps (Bitmap.of [99])
        [LazyOp.orOp (Bitmap.of [1, 2, 5, 10]) false,
         LazyOp.xorOp (Bitmap.of [5]),
         LazyOp.subOp (Bitmap.of [2])]).elems
    ∧ ((Bitmap.of [99]).lazy_batch_ops
        [LazyOp.orOp (Bitmap.of [1, 2, 5, 10]) false,
         LazyOp.xorOp (Bitmap.of [5]),
         LazyOp.subOp (Bitmap.of [2])]).elems
      = (applyEagerOps (Bitmap.of [99])
        [LazyOp.orOp (Bitmap.of [1, 2, 5, 10]) false,
         LazyOp.xorOp (Bitmap.of [5]),
         LazyOp.subOp (Bitmap.of [2])]).elems :=
  lazy_eager_equivalence (Bitmap.of [99])
    [LazyOp.orOp (Bitmap.of [1, 2, 5, 10]) false,
     LazyOp.xorOp (Bitmap.of [5]),
     LazyOp.subOp (Bitmap.of [2])]

/-- Claim C2 (amended): when the batch closure returns normally,
`lazy_batch` runs the repair pass before returning, so the bitmap is not
Lazy-dirty afterwards, and the closure's computed result is returned to the
caller.  When the closure panics, the repair pass does not run (see the
counterexample), so the Lazy-dirty state can escape. -/
theorem lazy_batch_repair_on_ok {O : Type} (b : Bitmap) (ops : List LazyOp) (o : O) :
    Bitmap.lazy_batch_run b
        (fun s => (applyLazyOps s ops, (Except.ok o : Except Unit O)))
      = (roaring_bitmap_repair_after_lazy (applyLazyOps b ops), Except.ok o)
    ∧ (Bitmap.lazy_batch_run b
        (fun s => (applyLazyOps s ops, (Except.ok o : Except Unit O)))).1.dirty = false :=
  ⟨rfl, rfl⟩

/-- Claim C2 counterexample: a batch closure that performs one lazy union
and then panics leaves the bitmap observably Lazy-dirty after `lazy_batch`
hands control back (the repair pass did not run on that exit path). -/
theorem lazy_batch_panic_counterexample :
    (Bitmap.lazy_batch_run (Bitmap.of [1])
        (fun s => (applyLazyOp s (LazyOp.orOp (Bitmap.of [2]) false),
                   (Except.error () : Except Unit Unit)))).1.dirty = true
    ∧ (Bitmap.lazy_batch_run (Bitmap.of [1])
        (fun s => (applyLazyOp s (LazyOp.orOp (Bitmap.of [2]) false),
                   (Except.error () : Except Unit Unit)))).2 = Except.error () :=
  ⟨rfl, rfl⟩

/-- Claim C6: starting from the bitmap 99, lazily OR-ing with the bitmaps
1 2 5 10, empty, and 1 30 100, then lazily subtracting 5 and 1 1000 1001,
then finalizing through `into_inner`, produces exactly the set
2 10 30 99 100. -/
theorem lazy_scenario :
    ((applyLazyOpsOwned ((Bitmap.of [99]).into_lazy)
        [LazyOp.orOp (Bitmap.of [1, 2, 5, 10]) false,
         LazyOp.orOp (Bitmap.of []) false,
         LazyOp.orOp (Bitmap.of [1, 30, 100]) false,
         LazyOp.subOp (Bitmap.of [5]),
         LazyOp.subOp (Bitmap.of [1, 1000, 1001])]).into_inner).elems
      = ({2, 10, 30, 99, 100} : Finset ℕ) := by
  decide

theorem extend_elems (s : List ℕ) (b : Bitmap) :
    (Bitmap.extend b s).elems = b.elems ∪ s.toFinset := by
  induction s generalizing b with
  | nil => simp [Bitmap.extend]
  | cons x t ih =>
    show (Bitmap.extend (b.add x) t).elems = _
    rw [ih]
    show insert x b.elems ∪ t.toFinset = _
    rw [List.toFinset_cons, Finset.insert_union, Finset.union_insert]

/-- Claim C7: for every input sequence of u32 values, including duplicates
and out-of-order values, the bitmap built by `from_iter` has exactly the
same element set as a bitmap created empty and then extended with the
sequence via `extend`; both equal the set of the sequence's elements. -/
theorem from_iterator_extend_equivalence (s : List ℕ) :
    (Bitmap.from_iter s).elems = (Bitmap.extend Bitmap.create s).elems
    ∧ (Bitmap.from_iter s).elems = s.toFinset := by
  have h : (Bitmap.extend Bitmap.create s).elems = s.toFinset := by
    rw [extend_elems]
    exact Finset.empty_union _
  exact ⟨by rw [h]; rfl, rfl⟩

/-- Claim C10: the in-place lazy binary operations `or_inplace`,
`xor_inplace` and `sub_assign` leave the element set of the right-hand
bitmap unchanged; only the target is modified, and it is modified to the
expected set. -/
theorem inplace_ops_preserve_other (t : LazyBitmap) (l : LazyOwnedBitmap)
    (other : Bitmap) (forceBitsets : Bool) :
    ((t.or_inplace other forceBitsets).2).elems = other.elems
    ∧ ((t.xor_inplace other).2).elems = other.elems
    ∧ ((l.sub_assign other).2).elems = other.elems
    ∧ ((t.or_inplace other forceBitsets).1).bitmap.elems = t.bitmap.elems ∪ other.elems
    ∧ ((t.xor_inplace other).1).bitmap.elems
        = (t.bitmap.elems \ other.elems) ∪ (other.elems \ t.bitmap.elems)
    ∧ ((l.sub_assign other).1).bitmap.elems = l.bitmap.elems \ other.elems :=
  ⟨rfl, rfl, rfl, rfl, rfl, rfl⟩

theorem BitmapIterator.next_eq_nil (it : BitmapIterator) (h : it.iterator.rem = []) :
    it.next = (none, it) := by
  simp [BitmapIterator.next, BitmapIterator.current_value, BitmapIterator.has_value,
    UIter.has_value, h]

theorem BitmapIterator.next_eq_cons (it : BitmapIterator) (a : ℕ) (t : List ℕ)
    (h : it.iterator.rem = a :: t) :
    it.next = (some a, BitmapIterator.mk ⟨t⟩ it.rev_iterator) := by
  simp [BitmapIterator.next, BitmapIterator.current_value, BitmapIterator.has_value,
    UIter.has_value, UIter.current_value, BitmapIterator.advance,
    roaring_advance_uint32_iterator, h]

theorem BitmapIterator.next_fst (it : BitmapIterator) :
    it.next.1 = it.iterator.rem.head? := by
  cases h : it.iterator.rem with
  | nil => rw [BitmapIterator.next_eq_nil it h]; rfl
  | cons a t => rw [BitmapIterator.next_eq_cons it a t h]; rfl

theorem BitmapIterator.next_back_eq_nil (it : BitmapIterator) (h : it.rev_iterator.rem = []) :
    it.next_back = (none, it) := by
  simp [BitmapIterator.next_back, BitmapIterator.current_value_back,
    BitmapIterator.has_value_back, UIter.has_value, h]

theorem BitmapIterator.next_back_eq_cons (it : BitmapIterator) (a : ℕ) (t : List ℕ)
    (h : it.rev_iterator.rem = a :: t) :
    it.next_back = (some a, BitmapIterator.mk it.iterator ⟨t⟩) := by
  simp [BitmapIterator.next_back, BitmapIterator.current_value_back,
    BitmapIterator.has_value_back, UIter.has_value, UIter.current_value,
    BitmapIterator.advance_back, roaring_previous_uint32_iterator, h]

theorem BitmapIterator.next_back_fst (it : BitmapIterator) :
    it.next_back.1 = it.rev_iterator.rem.head? := by
  cases h : it.rev_iterator.rem with
  | nil => rw [BitmapIterator.next_back_eq_nil it h]; rfl
  | cons a t => rw [BitmapIterator.next_back_eq_cons it a t h]; rfl

theorem nextOwned_eq_nil (it : BitmapIntoIterator) (h : it.iterator.rem = []) :
    it.next = (none, it) := by
  simp [BitmapIntoIterator.next, UIter.has_value, h]

theorem nextOwned_eq_cons (it : BitmapIntoIterator) (a : ℕ) (t : List ℕ)
    (h : it.iterator.rem = a :: t) :
    it.next = (some a, BitmapIntoIterator.mk ⟨t⟩ it.rev_iterator) := by
  simp [BitmapIntoIterator.next, UIter.has_value, UIter.current_value,
    roaring_advance_uint32_iterator, h]

theorem nextBackOwned_eq_nil (it : BitmapIntoIterator)
    (h : it.rev_iterator.rem = []) :
    it.next_back = (none, it) := by
  simp [BitmapIntoIterator.next_back, UIter.has_value, h]

theorem nextBackOwned_eq_cons (it : BitmapIntoIterator) (a : ℕ) (t : List ℕ)
    (h : it.rev_iterator.rem = a :: t) :
    it.next_back = (some a, BitmapIntoIterator.mk it.iterator ⟨t⟩) := by
  simp [BitmapIntoIterator.next_back, UIter.has_value, UIter.current_value,
    roaring_previous_uint32_iterator, h]

theorem drainNext_eq (fuel : ℕ) (it : BitmapIterator)
    (h : it.iterator.rem.length ≤ fuel) :
    drainNext fuel it = it.iterator.rem := by
  induction fuel generalizing it with
  | zero =>
    have h0 : it.iterator.rem = [] := List.length_eq_zero.mp (Nat.le_zero.mp h)
    rw [h0]; rfl
  | succ fuel ih =>
    cases hrem : it.iterator.rem with
    | nil => simp [drainNext, BitmapIterator.next_eq_nil it hrem, hrem]
    | cons a t =>
      have hstep : drainNext (fuel + 1) it = a :: drainNext fuel (BitmapIterator.mk ⟨t⟩ it.rev_iterator) := by
        simp [drainNext, BitmapIterator.next_eq_cons it a t hrem]
      have hlt : t.length ≤ fuel := by
        rw [hrem] at h
        simpa using h
      rw [hstep, ih (BitmapIterator.mk ⟨t⟩ it.rev_iterator) hlt]

theorem drainBack_eq (fuel : ℕ) (it : BitmapIterator)
    (h : it.rev_iterator.rem.length ≤ fuel) :
    drainBack fuel it = it.rev_iterator.rem := by
  induction fuel generalizing it with
  | zero =>
    have h0 : it.rev_iterator.rem = [] := List.length_eq_zero.mp (Nat.le_zero.mp h)
    rw [h0]; rfl
  | succ fuel ih =>
    cases hrem : it.rev_iterator.rem with
    | nil => simp [drainBack, BitmapIterator.next_back_eq_nil it hrem, hrem]
    | cons a t =>
      have hstep : drainBack (fuel + 1) it = a :: drainBack fuel (BitmapIterator.mk it.iterator ⟨t⟩) := by
        simp [drainBack, BitmapIterator.next_back_eq_cons it a t hrem]
      have hlt : t.length ≤ fuel := by
        rw [hrem] at h
        simpa using h
      rw [hstep, ih (BitmapIterator.mk it.iterator ⟨t⟩) hlt]

theorem drainNextOwned_eq (fuel : ℕ) (it : BitmapIntoIterator)
    (h : it.iterator.rem.length ≤ fuel) :
    drainNextOwned fuel it = it.iterator.rem := by
  induction fuel generalizing it with
  | zero =>
    have h0 : it.iterator.rem = [] := List.length_eq_zero.mp (Nat.le_zero.mp h)
    rw [h0]; rfl
  | succ fuel ih =>
    cases hrem : it.iterator.rem with
    | nil => simp [drainNextOwned, nextOwned_eq_nil it hrem, hrem]
    | cons a t =>
      have hstep : drainNextOwned (fuel + 1) it
          = a :: drainNextOwned fuel (BitmapIntoIterator.mk ⟨t⟩ it.rev_iterator) := by
        simp [drainNextOwned, nextOwned_eq_cons it a t hrem]
      have hlt : t.length ≤ fuel := by
        rw [hrem] at h
        simpa using h
      rw [hstep, ih (BitmapIntoIterator.mk ⟨t⟩ it.rev_iterator) hlt]

theorem drainBackOwned_eq (fuel : ℕ) (it : BitmapIntoIterator)
    (h : it.rev_iterator.rem.length ≤ fuel) :
    drainBackOwned fuel it = it.rev_iterator.rem := by
  induction fuel generalizing it with
  | zero =>
    have h0 : it.rev_iterator.rem = [] := List.length_eq_zero.mp (Nat.le_zero.mp h)
    rw [h0]; rfl
  | succ fuel ih =>
    cases hrem : it.rev_iterator.rem with
    | nil => simp [drainBackOwned, nextBackOwned_eq_nil it hrem, hrem]
    | cons a t =>
      have hstep : drainBackOwned (fuel + 1) it
          = a :: drainBackOwned fuel (BitmapIntoIterator.mk it.iterator ⟨t⟩) := by
        simp [drainBackOwned, nextBackOwned_eq_cons it a t hrem]
      have hlt : t.length ≤ fuel := by
        rw [hrem] at h
        simpa using h
      rw [hstep, ih (BitmapIntoIterator.mk it.iterator ⟨t⟩) hlt]

theorem next_many_fst (it : BitmapIterator) (dstLen : ℕ) :
    (it.next_many dstLen).1
      = it.iterator.rem.take (if dstLen ≤ u32MAX then dstLen else u32MAX) :=
  rfl

theorem next_many_snd (it : BitmapIterator) (dstLen : ℕ) :
    (it.next_many dstLen).2
      = BitmapIterator.mk
          ⟨it.iterator.rem.drop (if dstLen ≤ u32MAX then dstLen else u32MAX)⟩
          it.rev_iterator :=
  rfl

theorem has_value_mk (l : List ℕ) (r : UIter) :
    (BitmapIterator.mk ⟨l⟩ r).has_value = !l.isEmpty :=
  rfl

theorem drop_min_length (l : List ℕ) (c : ℕ) : l.drop (min c l.length) = l.drop c := by
  rcases le_total c l.length with h | h
  · rw [min_eq_left h]
  · rw [min_eq_right h, List.drop_length, List.drop_eq_nil_of_le h]

theorem stepFwd_take_drop (it : BitmapIterator) (op : FwdOp) :
    ∃ k, (it.stepFwd op).1 = it.iterator.rem.take k
      ∧ (it.stepFwd op).2 = BitmapIterator.mk ⟨it.iterator.rem.drop k⟩ it.rev_iterator := by
  obtain ⟨⟨rem⟩, rev⟩ := it
  cases op with
  | single =>
    cases rem with
    | nil => exact ⟨0, rfl, rfl⟩
    | cons a t => exact ⟨1, rfl, rfl⟩
  | many dstLen => exact ⟨if dstLen ≤ u32MAX then dstLen else u32MAX, rfl, rfl⟩

theorem runFwd_take_drop (ops : List FwdOp) (it : BitmapIterator) :
    ∃ k, (it.runFwd ops).1 = it.iterator.rem.take k
      ∧ (it.runFwd ops).2 = BitmapIterator.mk ⟨it.iterator.rem.drop k⟩ it.rev_iterator := by
  induction ops generalizing it with
  | nil =>
    refine ⟨0, rfl, ?_⟩
    obtain ⟨⟨rem⟩, rev⟩ := it
    rfl
  | cons op ops ih =>
    obtain ⟨k1, h1, h2⟩ := stepFwd_take_drop it op
    obtain ⟨k2, h3, h4⟩ := ih (it.stepFwd op).2
    refine ⟨k1 + k2, ?_, ?_⟩
    · show (it.stepFwd op).1 ++ ((it.stepFwd op).2.runFwd ops).1 = _
      rw [h3, h2, h1]
      show it.iterator.rem.take k1 ++ (it.iterator.rem.drop k1).take k2
          = it.iterator.rem.take (k1 + k2)
      exact (List.take_add it.iterator.rem k1 k2).symm
    · show ((it.stepFwd op).2.runFwd ops).2 = _
      rw [h4, h2]
      show BitmapIterator.mk ⟨(it.iterator.rem.drop k1).drop k2⟩ it.rev_iterator = _
      rw [List.drop_drop]

theorem stepFwd_nil (it : BitmapIterator) (op : FwdOp) (h : it.iterator.rem = []) :
    (it.stepFwd op).1 = [] ∧ (it.stepFwd op).2.iterator.rem = [] := by
  obtain ⟨k, h1, h2⟩ := stepFwd_take_drop it op
  constructor
  · rw [h1, h, List.take_nil]
  · rw [h2]
    show it.iterator.rem.drop k = []
    rw [h, List.drop_nil]

theorem runFwd_nil (ops : List FwdOp) (it : BitmapIterator) (h : it.iterator.rem = []) :
    (it.runFwd ops).1 = [] ∧ (it.runFwd ops).2.iterator.rem = [] := by
  obtain ⟨k, h1, h2⟩ := runFwd_take_drop ops it
  constructor
  · rw [h1, h, List.take_nil]
  · rw [h2]
    show it.iterator.rem.drop k = []
    rw [h, List.drop_nil]

theorem backSteps_of_nil (it : BitmapIterator) (h : it.rev_iterator.rem = []) :
    ∀ n, backSteps n it = it := by
  intro n
  induction n with
  | zero => rfl
  | succ n ih =>
    show backSteps n (it.next_back).2 = it
    rw [BitmapIterator.next_back_eq_nil it h]
    exact ih

theorem next_many_core (rem : List ℕ) (dstLen : ℕ) (hs : List.Sorted (· < ·) rem)
    (h1 : 1 ≤ dstLen) (h2 : dstLen ≤ u32MAX) :
    rem.take (if dstLen ≤ u32MAX then dstLen else u32MAX) = rem.take dstLen
    ∧ List.Sorted (· < ·) (rem.take (if dstLen ≤ u32MAX then dstLen else u32MAX))
    ∧ ((rem.take (if dstLen ≤ u32MAX then dstLen else u32MAX)).length < dstLen →
        rem.drop (if dstLen ≤ u32MAX then dstLen else u32MAX) = [])
    ∧ ((rem.take (if dstLen ≤ u32MAX then dstLen else u32MAX)).length = 0 ↔ rem = []) := by
  rw [if_pos h2]
  refine ⟨rfl, hs.sublist (List.take_sublist _ _), ?_, ?_⟩
  · intro hlt
    rw [List.length_take] at hlt
    have hlen : rem.length < dstLen := by
      rcases le_total dstLen rem.length with hh | hh
      · rw [min_eq_left hh] at hlt
        exact absurd hlt (lt_irrefl _)
      · rwa [min_eq_right hh] at hlt
    exact List.drop_eq_nil_of_le (le_of_lt hlen)
  · rw [List.length_take]
    constructor
    · intro h0
      rcases Nat.min_eq_zero_iff.mp h0 with h | h
      · omega
      · exact List.length_eq_zero.mp h
    · intro hnil
      rw [hnil]
      simp

/-- Claim C3 (amended): for every forward cursor (borrowing or owning) and
every destination slice whose length is between 1 and the u32 maximum,
`next_many` fills the destination in ascending order with the next elements
starting at the cursor's current position and returns the count written; if
the returned count is strictly less than the destination length then the
forward cursor is `Exhausted` at the end of the call (the converse fails,
since an exact fill also exhausts the cursor); the returned count is 0
exactly when the cursor was already exhausted at the start of the call. -/
theorem next_many_contract (it : BitmapIterator) (ito : BitmapIntoIterator) (dstLen : ℕ)
    (hs : List.Sorted (· < ·) it.iterator.rem)
    (hso : List.Sorted (· < ·) ito.iterator.rem)
    (h1 : 1 ≤ dstLen) (h2 : dstLen ≤ u32MAX) :
    ((it.next_many dstLen).1 = it.iterator.rem.take dstLen
      ∧ List.Sorted (· < ·) (it.next_many dstLen).1
      ∧ ((it.next_many dstLen).1.length < dstLen → (it.next_many dstLen).2.iterator.rem = [])
      ∧ ((it.next_many dstLen).1.length = 0 ↔ it.iterator.rem = []))
    ∧ ((ito.next_many dstLen).1 = ito.iterator.rem.take dstLen
      ∧ List.Sorted (· < ·) (ito.next_many dstLen).1
      ∧ ((ito.next_many dstLen).1.length < dstLen → (ito.next_many dstLen).2.iterator.rem = [])
      ∧ ((ito.next_many dstLen).1.length = 0 ↔ ito.iterator.rem = [])) :=
  ⟨next_many_core it.iterator.rem dstLen hs h1 h2,
   next_many_core ito.iterator.rem dstLen hso h1 h2⟩

/-- Claim C3 witness: the contract applied to concrete cursors over the
element sequence 5, 7 with a one-element destination. -/
theorem next_many_contract_witness :
    (List.Sorted (· < ·) (BitmapIterator.new [5, 7]).iterator.rem
      ∧ List.Sorted (· < ·) (BitmapIntoIterator.new [5, 7]).iterator.rem
      ∧ 1 ≤ 1 ∧ 1 ≤ u32MAX)
    ∧ ((((BitmapIterator.new [5, 7]).next_many 1).1
          = (BitmapIterator.new [5, 7]).iterator.rem.take 1
        ∧ List.Sorted (· < ·) ((BitmapIterator.new [5, 7]).next_many 1).1
        ∧ (((BitmapIterator.new [5, 7]).next_many 1).1.length < 1 →
            ((BitmapIterator.new [5, 7]).next_many 1).2.iterator.rem = [])
        ∧ (((BitmapIterator.new [5, 7]).next_many 1).1.length = 0 ↔
            (BitmapIterator.new [5, 7]).iterator.rem = []))
      ∧ (((BitmapIntoIterator.new [5, 7]).next_many 1).1
          = (BitmapIntoIterator.new [5, 7]).iterator.rem.take 1
        ∧ List.Sorted (· < ·) ((BitmapIntoIterator.new [5, 7]).next_many 1).1
        ∧ (((BitmapIntoIterator.new [5, 7]).next_many 1).1.length < 1 →
            ((BitmapIntoIterator.new [5, 7]).next_many 1).2.iterator.rem = [])
        ∧ (((BitmapIntoIterator.new [5, 7]).next_many 1).1.length = 0 ↔
            (BitmapIntoIterator.new [5, 7]).iterator.rem = []))) :=
  ⟨⟨by decide, by decide, by decide, by decide⟩,
   next_many_contract (BitmapIterator.new [5, 7]) (BitmapIntoIterator.new [5, 7]) 1
     (by decide) (by decide) (by decide) (by decide)⟩

/-- Claim C3 counterexample: three concrete refutations of the claim as
stated.  First, on a cursor holding exactly 5 with a one-element
destination, `next_many` returns the full destination length even though
the cursor becomes `Exhausted` during the call (refuting the right-to-left
direction of the claimed iff).  Second, on a non-exhausted cursor with an
empty destination, `next_many` returns 0 even though the cursor was not
exhausted at the start.  Third, with a destination longer than the u32
maximum over a cursor holding 2 to the 32 elements, the clamp makes the
returned count strictly less than the destination length even though the
cursor does not become exhausted. -/
theorem next_many_iff_counterexample :
    (((BitmapIterator.new [5]).next_many 1).1.length = 1
      ∧ (BitmapIterator.new [5]).has_value = true
      ∧ ((BitmapIterator.new [5]).next_many 1).2.has_value = false)
    ∧ (((BitmapIterator.new [5]).next_many 0).1.length = 0
      ∧ ((BitmapIterator.new [5]).next_many 0).2.has_value = true)
    ∧ (((BitmapIterator.mk ⟨List.range 4294967296⟩ ⟨[]⟩).next_many 4294967296).1.length
          < 4294967296
      ∧ ((BitmapIterator.mk ⟨List.range 4294967296⟩ ⟨[]⟩).next_many 4294967296).2.has_value
          = true) := by
  refine ⟨⟨by decide, by decide, by decide⟩, ⟨by decide, by decide⟩, ?_, ?_⟩
  · rw [next_many_fst, if_neg (by decide), List.length_take, List.length_range]
    decide
  · rw [next_many_snd, if_neg (by decide), has_value_mk]
    have hlen : ((List.range 4294967296).drop u32MAX).length = 1 := by
      rw [List.length_drop, List.length_range]
      decide
    cases hd : (List.range 4294967296).drop u32MAX with
    | nil => rw [hd] at hlen; simp at hlen
    | cons a t => rfl

/-- Claim C4: for every bitmap (given by its ascending element sequence)
and every interleaving of `next` and `next_many` calls on one forward
cursor, the concatenation of all elements produced, followed by draining
the rest with `next`, is the same ascending sequence — the bitmap's full
element sequence, with nothing skipped or repeated — as produced by `next`
alone; moreover after any `next_many` call, the next `next` call returns
exactly the element immediately following the last element written. -/
theorem interleaving_invariance (xs : List ℕ) (ops : List FwdOp) (fuel : ℕ)
    (hs : List.Sorted (· < ·) xs) (hf : xs.length ≤ fuel) :
    ((BitmapIterator.new xs).runFwd ops).1
        ++ drainNext fuel ((BitmapIterator.new xs).runFwd ops).2
      = drainNext fuel (BitmapIterator.new xs)
    ∧ drainNext fuel (BitmapIterator.new xs) = xs
    ∧ ∀ (it : BitmapIterator) (dstLen : ℕ),
        ((it.next_many dstLen).2).next.1
          = (it.iterator.rem.drop ((it.next_many dstLen).1.length)).head? := by
  have hdrain : drainNext fuel (BitmapIterator.new xs) = xs := drainNext_eq fuel _ hf
  obtain ⟨k, h1, h2⟩ := runFwd_take_drop ops (BitmapIterator.new xs)
  refine ⟨?_, hdrain, ?_⟩
  · rw [h1, h2, hdrain]
    have hrest : drainNext fuel
        (BitmapIterator.mk ⟨(BitmapIterator.new xs).iterator.rem.drop k⟩
          (BitmapIterator.new xs).rev_iterator)
        = (BitmapIterator.new xs).iterator.rem.drop k := by
      refine drainNext_eq fuel _ ?_
      show ((BitmapIterator.new xs).iterator.rem.drop k).length ≤ fuel
      rw [List.length_drop]
      exact le_trans (Nat.sub_le _ _) hf
    rw [hrest]
    exact List.take_append_drop k xs
  · intro it dstLen
    rw [BitmapIterator.next_fst]
    show ((it.iterator.rem.drop (if dstLen ≤ u32MAX then dstLen else u32MAX)).head?)
      = ((it.iterator.rem.drop
          ((it.iterator.rem.take (if dstLen ≤ u32MAX then dstLen else u32MAX)).length)).head?)
    rw [List.length_take, drop_min_length]

/-- Claim C4 witness: the interleaving property applied to the element
sequence 1, 2, 3 with one bulk read of 2 followed by a single `next`, and
the resume property applied to a cursor over 5, 7 after a one-element bulk
read. -/
theorem interleaving_invariance_witness :
    (List.Sorted (· < ·) [1, 2, 3] ∧ [1, 2, 3].length ≤ 3)
    ∧ (((BitmapIterator.new [1, 2, 3]).runFwd [FwdOp.many 2, FwdOp.single]).1
          ++ drainNext 3 (((BitmapIterator.new [1, 2, 3]).runFwd
              [FwdOp.many 2, FwdOp.single]).2)
        = drainNext 3 (BitmapIterator.new [1, 2, 3]))
    ∧ drainNext 3 (BitmapIterator.new [1, 2, 3]) = [1, 2, 3]
    ∧ (((BitmapIterator.new [5, 7]).next_many 1).2).next.1
        = ((BitmapIterator.new [5, 7]).iterator.rem.drop
            (((BitmapIterator.new [5, 7]).next_many 1).1.length)).head? :=
  ⟨⟨by decide, by decide⟩,
   (interleaving_invariance [1, 2, 3] [FwdOp.many 2, FwdOp.single] 3 (by decide) (by decide)).1,
   (interleaving_invariance [1, 2, 3] [FwdOp.many 2, FwdOp.single] 3 (by decide) (by decide)).2.1,
   (interleaving_invariance [1, 2, 3] [FwdOp.many 2, FwdOp.single] 3 (by decide)
     (by decide)).2.2 (BitmapIterator.new [5, 7]) 1⟩

/-- Claim C5: for every bitmap (given by its ascending element sequence),
collecting all elements by repeated `next` calls until exhaustion yields
exactly the reverse of the sequence obtained by repeated `next_back` calls
until exhaustion, for the borrowing iterator and for the owning iterator. -/
theorem forward_backward_consistency (xs : List ℕ) (fuel : ℕ)
    (hs : List.Sorted (· < ·) xs) (hf : xs.length ≤ fuel) :
    drainNext fuel (BitmapIterator.new xs) = (drainBack fuel (BitmapIterator.new xs)).reverse
    ∧ drainNextOwned fuel (BitmapIntoIterator.new xs)
        = (drainBackOwned fuel (BitmapIntoIterator.new xs)).reverse := by
  have hrev : xs.reverse.length ≤ fuel := by
    rw [List.length_reverse]
    exact hf
  have h1 : drainNext fuel (BitmapIterator.new xs) = xs := drainNext_eq fuel _ hf
  have h2 : drainBack fuel (BitmapIterator.new xs) = xs.reverse := drainBack_eq fuel _ hrev
  have h3 : drainNextOwned fuel (BitmapIntoIterator.new xs) = xs := drainNextOwned_eq fuel _ hf
  have h4 : drainBackOwned fuel (BitmapIntoIterator.new xs) = xs.reverse :=
    drainBackOwned_eq fuel _ hrev
  rw [h1, h2, h3, h4, List.reverse_reverse]
  exact ⟨rfl, rfl⟩

/-- Claim C5 witness: forward and backward drains over the element sequence
1, 5, 9 agree up to reversal for both iterator flavours. -/
theorem forward_backward_consistency_witness :
    (List.Sorted (· < ·) [1, 5, 9] ∧ [1, 5, 9].length ≤ 3)
    ∧ (drainNext 3 (BitmapIterator.new [1, 5, 9])
          = (drainBack 3 (BitmapIterator.new [1, 5, 9])).reverse
       ∧ drainNextOwned 3 (BitmapIntoIterator.new [1, 5, 9])
          = (drainBackOwned 3 (BitmapIntoIterator.new [1, 5, 9])).reverse) :=
  ⟨⟨by decide, by decide⟩, forward_backward_consistency [1, 5, 9] 3 (by decide) (by decide)⟩

/-- Claim C8: exhaustion is terminal and monotonic.  Once the forward
cursor has reported no value (`next` returned nothing, or `next_many`
returned 0 on a non-empty destination), every subsequent forward call —
any interleaving of `next` and `next_many` — also reports no value; once
the backward cursor has reported no value, every later `next_back` also
reports no value. -/
theorem exhaustion_terminal :
    (∀ (it : BitmapIterator),
        (it.next.1 = none ∨ ∃ dstLen, 1 ≤ dstLen ∧ (it.next_many dstLen).1.length = 0) →
        ∀ ops : List FwdOp, (it.runFwd ops).1 = [] ∧ ((it.runFwd ops).2).next.1 = none)
    ∧ (∀ (it : BitmapIterator), it.next_back.1 = none →
        ∀ n : ℕ, ((backSteps n it).next_back).1 = none) := by
  constructor
  · intro it hex ops
    have hnil : it.iterator.rem = [] := by
      rcases hex with h | ⟨dstLen, hd, h0⟩
      · rw [BitmapIterator.next_fst] at h
        exact List.head?_eq_none_iff.mp h
      · have hc : (if dstLen ≤ u32MAX then dstLen else u32MAX) ≠ 0 := by
          rcases le_or_lt dstLen u32MAX with hh | hh
          · rw [if_pos hh]
            omega
          · rw [if_neg (not_le.mpr hh)]
            decide
        have h0l : (it.iterator.rem.take
            (if dstLen ≤ u32MAX then dstLen else u32MAX)).length = 0 := h0
        rw [List.length_take] at h0l
        rcases Nat.min_eq_zero_iff.mp h0l with h | h
        · exact absurd h hc
        · exact List.length_eq_zero.mp h
    obtain ⟨hout, hrem⟩ := runFwd_nil ops it hnil
    refine ⟨hout, ?_⟩
    rw [BitmapIterator.next_fst, hrem]
    rfl
  · intro it h n
    have hnil : it.rev_iterator.rem = [] := by
      rw [BitmapIterator.next_back_fst] at h
      exact List.head?_eq_none_iff.mp h
    rw [backSteps_of_nil it hnil n, BitmapIterator.next_back_fst, hnil]
    rfl

/-- Claim C8 witness: monotonic exhaustion applied to the cursor of an
empty bitmap, in both directions. -/
theorem exhaustion_terminal_witness :
    (((BitmapIterator.new []).runFwd [FwdOp.single, FwdOp.many 3]).1 = []
      ∧ (((BitmapIterator.new []).runFwd [FwdOp.single, FwdOp.many 3]).2).next.1 = none)
    ∧ ((backSteps 2 (BitmapIterator.new [])).next_back).1 = none :=
  ⟨exhaustion_terminal.1 (BitmapIterator.new []) (Or.inl (by decide))
     [FwdOp.single, FwdOp.many 3],
   exhaustion_terminal.2 (BitmapIterator.new []) (by decide) 2⟩

/-- Claim C9: when the destination slice's length exceeds the maximum value
of the u32 count type, `next_many` clamps the requested transfer count to
that maximum rather than failing: the call behaves exactly like a call with
a u32-maximum-sized destination and writes at most that many elements, so
the caller must call again for the rest. -/
theorem next_many_clamps (it : BitmapIterator) (dstLen : ℕ) (h : u32MAX < dstLen) :
    it.next_many dstLen = it.next_many u32MAX
    ∧ (it.next_many dstLen).1.length ≤ u32MAX := by
  have hc : (if dstLen ≤ u32MAX then dstLen else u32MAX) = u32MAX :=
    if_neg (not_le.mpr h)
  constructor
  · show (it.iterator.rem.take (if dstLen ≤ u32MAX then dstLen else u32MAX),
        BitmapIterator.mk ⟨it.iterator.rem.drop
          (if dstLen ≤ u32MAX then dstLen else u32MAX)⟩ it.rev_iterator)
      = (it.iterator.rem.take (if u32MAX ≤ u32MAX then u32MAX else u32MAX),
        BitmapIterator.mk ⟨it.iterator.rem.drop
          (if u32MAX ≤ u32MAX then u32MAX else u32MAX)⟩ it.rev_iterator)
    rw [hc, if_pos le_rfl]
  · show (it.iterator.rem.take (if dstLen ≤ u32MAX then dstLen else u32MAX)).length ≤ u32MAX
    rw [hc, List.length_take]
    exact min_le_left _ _

/-- Claim C9 witness: a destination of length 2 to the 32 on a cursor over
1, 2 is clamped to the u32 maximum. -/
theorem next_many_clamps_witness :
    u32MAX < 4294967296
    ∧ ((BitmapIterator.new [1, 2]).next_many 4294967296
          = (BitmapIterator.new [1, 2]).next_many u32MAX
       ∧ ((BitmapIterator.new [1, 2]).next_many 4294967296).1.length ≤ u32MAX) :=
  ⟨by decide, next_many_clamps (BitmapIterator.new [1, 2]) 4294967296 (by decide)⟩
